import Mathlib

/-!
Shallow embedding of the go-assemble chunked-upload engine.

The live code of the repository is `src/assemble.go` (the HTTP middleware,
whose registry is a `sync.Map` of per-file entries) together with the
tracker operations (`getFile`, `getFileOrAdd`, `add`, `delete`,
`isComplete`, `countChunks`, `totalChunks`, `combineChunks`) and the
helpers of `src/util.go` (`containsInvalidCharacters`, `GetFileID`,
`badRequest`).  `src/tracker.go` is an earlier iteration with the same
tracker semantics over a plain map and additionally `addFileIfNotExists`;
it is embedded as well because several claims cite it.

Modelling choices, stated once:
* Go `int64` values (sequence numbers, chunk totals, map lengths) are
  `Int`.  No arithmetic in the source can overflow a 64-bit integer for
  any state reachable here (lengths of in-memory maps), so plain `Int`
  is faithful.
* Byte slices are `List Nat` (`Bytes`); the engine only reads lengths
  and concatenates, never computes on bytes.
* The chunk directory and the completed directory are association lists.
  A chunk file path `path.Join(ChunksDir, fmt.Sprintf("%s-%d", fileID,
  chunkID))` is modelled by the key `(fileID, chunkID)`: for the
  sanitized identities accepted by `getFileID` (no `/`) and the
  non-negative chunk IDs accepted by `getChunkSequence`, the formatted
  string determines the pair uniquely (the decimal digits after the last
  hyphen are exactly `chunkID`), so the pair key is a faithful rendering
  of the path.
* Fallible Go functions return their receiver state plus `Option
  GoError`; `GoError.nilPanic` marks the places where the Go code would
  dereference a nil `*file` (a runtime panic, not a returned error); no
  claim exercises those branches.
* `ioutil.WriteFile` may fail for external reasons; that environment
  choice is the explicit `writeOk : Bool` argument threaded through
  `add` and the middleware.  `os.Remove` fails exactly when the path is
  absent from the modelled directory.  `os.Create` and `os.Open` on the
  completed directory succeed whenever the artifact entry exists.
* The middleware is sequential per identity in the source (`f.lock`);
  one submission is one `middlewareStep`.  The post-combine cleanup
  goroutine is asynchronous in the source, so it is modelled as separate
  `delete` steps that may run at any later point (see `Reachable`).
-/

set_option linter.unusedVariables false

deriving instance DecidableEq for Except

namespace Assemble

/-- Byte payloads: the engine only concatenates them and tests emptiness. -/
abbrev Bytes := List Nat

/-- Association-list lookup (first match wins), the model of Go map reads
and of `context.Value` lookup (innermost `WithValue` wins). -/
def mapGet {κ α : Type} [DecidableEq κ] : List (κ × α) → κ → Option α
  | [], _ => none
  | (k, v) :: m, k' => if k' = k then some v else mapGet m k'

/-- Association-list store, the model of Go map writes: the key is bound
to `v` and any previous binding is dropped. -/
def mapSet {κ α : Type} [DecidableEq κ] (m : List (κ × α)) (k : κ) (v : α) : List (κ × α) :=
  (k, v) :: m.filter (fun p => p.1 ≠ k)

/-- Association-list removal, the model of Go `delete` on a map. -/
def mapDel {κ α : Type} [DecidableEq κ] (m : List (κ × α)) (k : κ) : List (κ × α) :=
  m.filter (fun p => p.1 ≠ k)

/-- `type file struct` of `src/tracker.go` / `src/unnamed/part_000`: the
received sequence numbers (Go: `map[int64]interface{}`, only keys matter)
and the declared expected total.  The per-file mutex is the sequencing of
`middlewareStep`, not data. -/
structure File where
  chunkSet : Finset Int
  expectedTotal : Int
deriving DecidableEq

/-- Error outcomes of the tracker operations.  `storage` is any I/O error
surfaced by the Go standard library; `quantityChange` is
`ErrChunkQuantityChange`; `nilPanic` marks a nil-pointer dereference in
the source (a Go panic, reachable only by calling a tracker operation for
an unregistered identity). -/
inductive GoError where
  | storage
  | quantityChange
  | nilPanic
deriving DecidableEq

/-- The whole engine state: the registry (`FileChunksAssembler.data`),
the staged-chunk directory, the completed-artifact directory (keyed by
identity, since `combineChunks` writes `path.Join(CompletedDir, fileID)`),
and the `KeepCompletedChunks` configuration flag. -/
structure AssemblerState where
  data : List (String × File)
  chunksDir : List ((String × Int) × Bytes)
  completedDir : List (String × Bytes)
  keepCompletedChunks : Bool
deriving DecidableEq

/-- A fresh assembler (`NewFileChunksAssembler`): empty registry, empty
directories. -/
def initialState (keep : Bool) : AssemblerState :=
  { data := [], chunksDir := [], completedDir := [], keepCompletedChunks := keep }

/-- The staged-chunk key, modelling
`path.Join(a.Config.ChunksDir, fmt.Sprintf("%s-%d", fileID, chunkID))`
(see the header comment for why the pair is a faithful key). -/
def chunkFilePath (fileID : String) (chunkID : Int) : String × Int :=
  (fileID, chunkID)

/-- `getFile` of `src/unnamed/part_000`: registry lookup. -/
def getFile (st : AssemblerState) (fileID : String) : Option File :=
  mapGet st.data fileID

/-- `exists` of `src/tracker.go` (named `fileExists` because `exists` is
reserved in Lean). -/
def fileExists (st : AssemblerState) (fileID : String) : Bool :=
  (mapGet st.data fileID).isSome

/-- `getFileOrAdd` of `src/unnamed/part_000`: return the registered entry,
or create one with an empty chunk set and the declared total.  The
`chunkID` argument is unused, as in the source. -/
def getFileOrAdd (st : AssemblerState) (fileID : String) (chunkID total : Int) :
    AssemblerState × File :=
  match getFile st fileID with
  | some f => (st, f)
  | none =>
    let f : File := { chunkSet := ∅, expectedTotal := total }
    ({ st with data := mapSet st.data fileID f }, f)

/-- `addFileIfNotExists` of `src/tracker.go`: create the entry if absent;
if present with a different declared total, fail with
`ErrChunkQuantityChange` and change nothing.  The `chunkID` argument is
unused, as in the source. -/
def addFileIfNotExists (st : AssemblerState) (fileID : String) (chunkID total : Int) :
    AssemblerState × Option GoError :=
  match mapGet st.data fileID with
  | none =>
    ({ st with data := mapSet st.data fileID { chunkSet := ∅, expectedTotal := total } }, none)
  | some f =>
    if f.expectedTotal ≠ total then (st, some .quantityChange) else (st, none)

/-- `add` of `src/tracker.go` / `src/unnamed/part_000`: write the chunk
file, then record the sequence number in the entry's chunk set.  A failed
`ioutil.WriteFile` (environment bit `writeOk = false`) returns the error
with nothing recorded. -/
def add (st : AssemblerState) (fileID : String) (chunkID : Int) (data : Bytes)
    (writeOk : Bool) : AssemblerState × Option GoError :=
  if writeOk then
    let st1 := { st with chunksDir := mapSet st.chunksDir (chunkFilePath fileID chunkID) data }
    match mapGet st1.data fileID with
    | none => (st1, some .nilPanic)
    | some f =>
      ({ st1 with
          data := mapSet st1.data fileID { f with chunkSet := insert chunkID f.chunkSet } },
        none)
  else (st, some .storage)

/-- `delete` of `src/tracker.go` / `src/unnamed/part_000`: `os.Remove`
the chunk file (failing when it is absent), then erase the sequence
number from the entry and drop the entry once its chunk set is empty. -/
def delete (st : AssemblerState) (fileID : String) (chunkID : Int) :
    AssemblerState × Option GoError :=
  match mapGet st.chunksDir (chunkFilePath fileID chunkID) with
  | none => (st, some .storage)
  | some _ =>
    let st1 := { st with chunksDir := mapDel st.chunksDir (chunkFilePath fileID chunkID) }
    match mapGet st1.data fileID with
    | none => (st1, some .nilPanic)
    | some f =>
      let cs := f.chunkSet.erase chunkID
      if cs.card = 0 then
        ({ st1 with data := mapDel st1.data fileID }, none)
      else
        ({ st1 with data := mapSet st1.data fileID { f with chunkSet := cs } }, none)

/-- `countChunks`: `int64(len(f.chunkSet))`.  The Go code dereferences a
nil pointer for an unregistered identity; this totalization returns `0`
there and is only ever applied where the entry exists. -/
def countChunks (st : AssemblerState) (fileID : String) : Int :=
  match getFile st fileID with
  | some f => (f.chunkSet.card : Int)
  | none => 0

/-- `totalChunks`: the entry's `expectedTotal` (same totalization remark
as `countChunks`). -/
def totalChunks (st : AssemblerState) (fileID : String) : Int :=
  match getFile st fileID with
  | some f => f.expectedTotal
  | none => 0

/-- `isComplete`: received count equals expected count. -/
def isComplete (st : AssemblerState) (fileID : String) : Bool :=
  countChunks st fileID == totalChunks st fileID

/-- The combine loop of `combineChunks`: read each listed chunk file and
append it to the artifact written so far; stop with `false` (a failed
`os.ReadFile`) at the first missing chunk, leaving the partial artifact. -/
def combineFrom (chunks : List ((String × Int) × Bytes)) (fileID : String) :
    List Int → Bytes → Bytes × Bool
  | [], acc => (acc, true)
  | i :: rest, acc =>
    match mapGet chunks (chunkFilePath fileID i) with
    | none => (acc, false)
    | some c => combineFrom chunks fileID rest (acc ++ c)

/-- The index sequence of the Go loop `for i := int64(0); i < n; i++`. -/
def seqList (n : Int) : List Int :=
  (List.range n.toNat).map Int.ofNat

/-- `combineChunks` of `src/tracker.go` / `src/unnamed/part_000`: if the
upload is not complete, return an empty path and no error; otherwise
create the artifact (`os.Create` truncates), append the staged chunks in
ascending sequence order, and return the artifact path (modelled by the
identity key).  On a failed chunk read the partially written artifact
remains in the completed directory and a storage error is returned.  The
cleanup goroutine the source then spawns is asynchronous and is modelled
as later `delete` steps (see `Reachable`), not as part of this function. -/
def combineChunks (st : AssemblerState) (fileID : String) :
    AssemblerState × String × Option GoError :=
  if isComplete st fileID then
    let n := totalChunks st fileID
    let r := combineFrom st.chunksDir fileID (seqList n) []
    let st' := { st with completedDir := mapSet st.completedDir fileID r.1 }
    if r.2 then (st', fileID, none) else (st', "", some .storage)
  else (st, "", none)

/-- `containsInvalidCharacters` of `src/util.go`: true when some rune is
neither an ASCII letter, a digit, an underscore nor a hyphen. -/
def containsInvalidCharacters (s : String) : Bool :=
  s.data.any fun c =>
    !(decide ('A' ≤ c) && decide (c ≤ 'Z')) &&
    !(decide ('a' ≤ c) && decide (c ≤ 'z')) &&
    !(decide ('0' ≤ c) && decide (c ≤ '9')) &&
    !(c == '_') && !(c == '-')

/-- The HTTP-400 rejection reasons of the middleware, one per
`badRequest` call site plus `ErrChunkQuantityChange`. -/
inductive RejectKind where
  | missingFileID
  | badFileIDChars
  | badTotalParse
  | nonPositiveTotal
  | badSeqParse
  | negativeSeq
  | seqOutOfRange
  | emptyChunk
  | quantityChange
deriving DecidableEq

/-- The spec's `InvalidRequest` class: every 400 rejection except the
`QuantityMismatch` one. -/
def RejectKind.isInvalidRequest : RejectKind → Bool
  | .quantityChange => false
  | _ => true

/-- `getFileID` of `src/assemble.go`: the identity header must be
non-empty and pass the character allowlist before it is used anywhere. -/
def getFileID (fileID : String) : Except RejectKind String :=
  if fileID = "" then .error .missingFileID
  else if containsInvalidCharacters fileID then .error .badFileIDChars
  else .ok fileID

/-- `getChunkTotal` of `src/assemble.go`.  `none` models a header that
`strconv.ParseInt` rejects; a parsed total must be positive. -/
def getChunkTotal (header : Option Int) : Except RejectKind Int :=
  match header with
  | none => .error .badTotalParse
  | some n => if n ≤ 0 then .error .nonPositiveTotal else .ok n

/-- `getChunkSequence` of `src/assemble.go`.  `none` models a header that
`strconv.ParseInt` rejects; a parsed sequence number must be
non-negative. -/
def getChunkSequence (header : Option Int) : Except RejectKind Int :=
  match header with
  | none => .error .badSeqParse
  | some s => if s < 0 then .error .negativeSeq else .ok s

/-- A request context: the `context.Value` chain, restricted to the
string-valued keys this package stores (`"id"`; the rejection slots are
carried separately in the outcome). -/
abbrev Ctx := List (String × String)

/-- One chunk-submission request as the middleware sees it: the three
header values (integers already past `strconv.ParseInt`, `none` when the
parse failed), the body bytes, the optional declared content type, and
the incoming request context. -/
structure Request where
  fileID : String
  chunkTotal : Option Int
  chunkSeq : Option Int
  body : Bytes
  contentType : String
  ctx : Ctx
deriving DecidableEq

/-- What the middleware hands to the wrapped handler on completion: the
request whose body is the assembled artifact, whose `Content-Type` header
was defaulted, and whose context carries the `"id"` value. -/
structure DownstreamCtx where
  fileID : String
  body : Bytes
  contentType : String
  ctx : Ctx
deriving DecidableEq

/-- The externally visible outcome of one submission: a 400 rejection, a
500, a progress response for an incomplete upload, or — on the completing
submission — the progress response together with the downstream handoff
that was performed. -/
inductive MWOutcome where
  | reject (k : RejectKind)
  | serverError
  | progress (have_ want : Int)
  | handoff (have_ want : Int) (c : DownstreamCtx)
deriving DecidableEq

def MWOutcome.isHandoff : MWOutcome → Bool
  | .handoff _ _ _ => true
  | _ => false

/-- A convenience constructor for a well-formed submission request. -/
def mkReq (fid : String) (total seq : Int) (body : Bytes) : Request :=
  { fileID := fid, chunkTotal := some total, chunkSeq := some seq,
    body := body, contentType := "", ctx := [] }

/-- `Middleware` of `src/assemble.go`, one submission: validate the
headers and the body, resolve or create the registry entry, reject a
changed declared total, write the chunk, and — when the upload is then
complete — combine the chunks, open the artifact, and call the wrapped
handler with the artifact as body and the identity in the context.
`writeOk` is the environment bit for this submission's chunk write. -/
def middlewareStep (st : AssemblerState) (req : Request) (writeOk : Bool) :
    AssemblerState × MWOutcome :=
  match getFileID req.fileID with
  | .error k => (st, .reject k)
  | .ok fileID =>
    match getChunkTotal req.chunkTotal with
    | .error k => (st, .reject k)
    | .ok chunkExpectedTotal =>
      match getChunkSequence req.chunkSeq with
      | .error k => (st, .reject k)
      | .ok chunkSequenceID =>
        if chunkSequenceID ≥ chunkExpectedTotal then (st, .reject .seqOutOfRange)
        else if req.body = [] then (st, .reject .emptyChunk)
        else
          let fr := getFileOrAdd st fileID chunkSequenceID chunkExpectedTotal
          if fr.2.expectedTotal ≠ chunkExpectedTotal then (fr.1, .reject .quantityChange)
          else
            let ar := add fr.1 fileID chunkSequenceID req.body writeOk
            match ar.2 with
            | some _ => (ar.1, .serverError)
            | none =>
              let st2 := ar.1
              let haveC := countChunks st2 fileID
              let wantC := totalChunks st2 fileID
              if isComplete st2 fileID then
                let cr := combineChunks st2 fileID
                match cr.2.2 with
                | some _ => (cr.1, .serverError)
                | none =>
                  match mapGet cr.1.completedDir fileID with
                  | none => (cr.1, .serverError)
                  | some artifact =>
                    (cr.1, .handoff haveC wantC
                      { fileID := fileID
                        body := artifact
                        contentType :=
                          if req.contentType = "" then "application/octet-stream"
                          else req.contentType
                        ctx := ("id", fileID) :: req.ctx })
              else (st2, .progress haveC wantC)

/-- `GetFileID` of `src/util.go`: read the `"id"` context value; its
absence is the source's `panic`, modelled as the `.error` branch carrying
the panic message. -/
def GetFileID (ctx : Ctx) : Except String String :=
  match mapGet ctx "id" with
  | none => .error "GetFileID can only be used inside handlers wrapped by go-assemble"
  | some v => .ok v

/-- One pass of the post-combine cleanup goroutine for one chunk:
`_ = a.delete(fileID, i)` — the error is discarded and the state (with
whatever `delete` managed to do) is kept. -/
def cleanupStep (st : AssemblerState) (fileID : String) (chunkID : Int) : AssemblerState :=
  (delete st fileID chunkID).1

/-- The states the engine can be in: a fresh assembler, then any
interleaving of chunk submissions (with either write-environment bit) and
asynchronous cleanup deletions. -/
inductive Reachable : AssemblerState → Prop where
  | init (keep : Bool) : Reachable (initialState keep)
  | step (st : AssemblerState) (req : Request) (writeOk : Bool) :
      Reachable st → Reachable (middlewareStep st req writeOk).1
  | cleanup (st : AssemblerState) (fileID : String) (chunkID : Int) :
      Reachable st → Reachable (cleanupStep st fileID chunkID)

/-- Processing a list of submissions for one upload in order, all chunk
writes succeeding: the arrival order of the chunks. -/
def processAll (fid : String) (total : Int) (p : Int → Bytes) :
    AssemblerState → List Int → AssemblerState
  | st, [] => st
  | st, i :: rest =>
    processAll fid total p (middlewareStep st (mkReq fid total i (p i)) true).1 rest

/-- The per-entry invariant of §3 of the spec: the received set never
exceeds the declared total, and every recorded sequence number is in
range. -/
def fileInv (f : File) : Prop :=
  (f.chunkSet.card : Int) ≤ f.expectedTotal ∧
    ∀ i ∈ f.chunkSet, 0 ≤ i ∧ i < f.expectedTotal

instance (f : File) : Decidable (fileInv f) := by
  unfold fileInv
  infer_instance

/-- The registry-wide invariant: every registered upload satisfies
`fileInv`. -/
def RegistryInv (st : AssemblerState) : Prop :=
  ∀ p ∈ st.data, fileInv p.2

instance (st : AssemblerState) : Decidable (RegistryInv st) := by
  unfold RegistryInv
  infer_instance

/-- The picture of one in-flight upload while its chunks arrive: the
registry entry (absent before the first chunk) holds exactly the received
sequence numbers `S` with declared total `N`, every received number's
payload is staged, and every received number is in range. -/
def partialView (st : AssemblerState) (fid : String) (N : Int) (p : Int → Bytes)
    (S : Finset Int) : Prop :=
  ((mapGet st.data fid = none ∧ S = ∅) ∨ mapGet st.data fid = some ⟨S, N⟩) ∧
  (∀ j ∈ S, mapGet st.chunksDir (chunkFilePath fid j) = some (p j)) ∧
  (∀ j ∈ S, 0 ≤ j ∧ j < N)

/-- A two-chunk registry entry used to instantiate hypothesis-bearing
theorems at a concrete state. -/
def sampleState : AssemblerState :=
  { data := [("f", { chunkSet := ∅, expectedTotal := 2 })]
    chunksDir := []
    completedDir := []
    keepCompletedChunks := false }

theorem mapGet_set_self {κ α : Type} [DecidableEq κ] (m : List (κ × α)) (k : κ) (v : α) :
    mapGet (mapSet m k v) k = some v := by
  simp [mapGet, mapSet]

theorem mapGet_filter_ne {κ α : Type} [DecidableEq κ] (m : List (κ × α)) (k k' : κ)
    (h : k' ≠ k) : mapGet (m.filter (fun p => p.1 ≠ k)) k' = mapGet m k' := by
  induction m with
  | nil => rfl
  | cons a m ih =>
    obtain ⟨ak, av⟩ := a
    by_cases ha : ak = k
    · have hk' : ¬k' = ak := fun hh => h (hh.trans ha)
      rw [List.filter_cons_of_neg (by simp [ha])]
      rw [ih]
      simp [mapGet, hk']
    · rw [List.filter_cons_of_pos (by simp [ha])]
      by_cases hk' : k' = ak
      · simp only [mapGet, if_pos hk']
      · simp only [mapGet, if_neg hk']
        exact ih

theorem mapGet_set_ne {κ α : Type} [DecidableEq κ] (m : List (κ × α)) (k k' : κ) (v : α)
    (h : k' ≠ k) : mapGet (mapSet m k v) k' = mapGet m k' := by
  simp only [mapSet, mapGet, if_neg h]
  exact mapGet_filter_ne m k k' h

theorem mapSet_mapSet {κ α : Type} [DecidableEq κ] (m : List (κ × α)) (k : κ) (v v' : α) :
    mapSet (mapSet m k v) k v' = mapSet m k v' := by
  simp [mapSet, List.filter_filter]

theorem mapGet_del_ne {κ α : Type} [DecidableEq κ] (m : List (κ × α)) (k k' : κ)
    (h : k' ≠ k) : mapGet (mapDel m k) k' = mapGet m k' :=
  mapGet_filter_ne m k k' h

theorem mem_mapSet {κ α : Type} [DecidableEq κ] {m : List (κ × α)} {k : κ} {v : α}
    {p : κ × α} (hp : p ∈ mapSet m k v) : p = (k, v) ∨ p ∈ m := by
  rcases hp with _ | hp
  · exact Or.inl rfl
  · exact Or.inr (List.mem_of_mem_filter (by assumption))

theorem mem_mapDel {κ α : Type} [DecidableEq κ] {m : List (κ × α)} {k : κ}
    {p : κ × α} (hp : p ∈ mapDel m k) : p ∈ m :=
  List.mem_of_mem_filter hp

theorem getFileID_ok {s v : String} (h : getFileID s = .ok v) : v = s := by
  unfold getFileID at h
  by_cases h1 : s = "" <;> simp [h1] at h
  by_cases h2 : containsInvalidCharacters s <;> simp [h2] at h
  exact h.symm

theorem getChunkTotal_ok {h : Option Int} {t : Int} (hok : getChunkTotal h = .ok t) :
    h = some t ∧ 0 < t := by
  unfold getChunkTotal at hok
  cases h with
  | none => simp at hok
  | some n =>
    by_cases hn : n ≤ 0 <;> simp [hn] at hok
    subst hok
    exact ⟨rfl, by omega⟩

theorem getChunkSequence_ok {h : Option Int} {s : Int} (hok : getChunkSequence h = .ok s) :
    h = some s ∧ 0 ≤ s := by
  unfold getChunkSequence at hok
  cases h with
  | none => simp at hok
  | some n =>
    by_cases hn : n < 0 <;> simp [hn] at hok
    subst hok
    exact ⟨rfl, by omega⟩

theorem mapGet_mem {κ α : Type} [DecidableEq κ] {m : List (κ × α)} {k : κ} {v : α}
    (h : mapGet m k = some v) : (k, v) ∈ m := by
  induction m with
  | nil => simp [mapGet] at h
  | cons a m ih =>
    obtain ⟨ak, av⟩ := a
    by_cases hk : k = ak
    · simp only [mapGet, if_pos hk] at h
      obtain rfl := Option.some.inj h
      subst hk
      exact List.mem_cons_self _ _
    · simp only [mapGet, if_neg hk] at h
      exact List.mem_cons_of_mem _ (ih h)

theorem card_le_of_range {S : Finset Int} {T : Int} (hT : 0 ≤ T)
    (h : ∀ i ∈ S, 0 ≤ i ∧ i < T) : (S.card : Int) ≤ T := by
  have hsub : S ⊆ Finset.Ico 0 T := fun i hi => Finset.mem_Ico.mpr (h i hi)
  have hc := Finset.card_le_card hsub
  rw [Int.card_Ico] at hc
  omega

theorem fileInv_insert {f : File} (hf : fileInv f) {i : Int} (h0 : 0 ≤ i)
    (hi : i < f.expectedTotal) : fileInv { f with chunkSet := insert i f.chunkSet } := by
  obtain ⟨hcard, hmem⟩ := hf
  have hall : ∀ j ∈ insert i f.chunkSet, 0 ≤ j ∧ j < f.expectedTotal := by
    intro j hj
    rcases Finset.mem_insert.mp hj with rfl | hj
    · exact ⟨h0, hi⟩
    · exact hmem j hj
  refine ⟨?_, hall⟩
  show ((insert i f.chunkSet).card : Int) ≤ f.expectedTotal
  exact card_le_of_range (by omega) hall

theorem fileInv_erase {f : File} (hf : fileInv f) (i : Int) :
    fileInv { f with chunkSet := f.chunkSet.erase i } := by
  obtain ⟨hcard, hmem⟩ := hf
  refine ⟨?_, fun j hj => hmem j (Finset.mem_of_mem_erase hj)⟩
  show ((f.chunkSet.erase i).card : Int) ≤ f.expectedTotal
  have hc := Finset.card_erase_le (a := i) (s := f.chunkSet)
  omega

theorem getFileOrAdd_inv {st : AssemblerState} {fid : String} {c total : Int}
    (hinv : RegistryInv st) (ht : 0 < total) :
    RegistryInv (getFileOrAdd st fid c total).1 := by
  unfold getFileOrAdd
  rcases hg : getFile st fid with _ | f
  · dsimp only
    intro p hp
    rcases mem_mapSet hp with rfl | hp
    · refine ⟨?_, by simp [fileInv]⟩
      show ((∅ : Finset Int).card : Int) ≤ total
      simp
      omega
    · exact hinv p hp
  · exact hinv

theorem getFileOrAdd_entry (st : AssemblerState) (fid : String) (c total : Int) :
    mapGet (getFileOrAdd st fid c total).1.data fid = some (getFileOrAdd st fid c total).2 := by
  unfold getFileOrAdd
  rcases hg : getFile st fid with _ | f
  · dsimp only
    exact mapGet_set_self _ _ _
  · exact hg

theorem add_inv {st : AssemblerState} {fid : String} {i : Int} {d : Bytes} {w : Bool}
    (hinv : RegistryInv st)
    (hb : ∀ f, mapGet st.data fid = some f → 0 ≤ i ∧ i < f.expectedTotal) :
    RegistryInv (add st fid i d w).1 := by
  unfold add
  split
  · dsimp only
    split
    next heq => exact fun p hp => hinv p hp
    next f heq =>
      intro p hp
      rcases mem_mapSet hp with rfl | hp
      · exact fileInv_insert (hinv _ (mapGet_mem heq)) (hb f heq).1 (hb f heq).2
      · exact hinv p hp
  · exact hinv

theorem delete_inv {st : AssemblerState} {fid : String} {i : Int}
    (hinv : RegistryInv st) : RegistryInv (delete st fid i).1 := by
  unfold delete
  split
  · exact hinv
  · dsimp only
    split
    next heq => exact fun p hp => hinv p hp
    next f heq =>
      split
      · intro p hp
        exact hinv p (mem_mapDel hp)
      · intro p hp
        rcases mem_mapSet hp with rfl | hp
        · exact fileInv_erase (hinv _ (mapGet_mem heq)) i
        · exact hinv p hp

theorem combineChunks_data (st : AssemblerState) (fid : String) :
    (combineChunks st fid).1.data = st.data := by
  unfold combineChunks
  split
  · dsimp only
    split <;> rfl
  · rfl

theorem registryInv_step (st : AssemblerState) (req : Request) (w : Bool)
    (hinv : RegistryInv st) : RegistryInv (middlewareStep st req w).1 := by
  unfold middlewareStep
  rcases hfid : getFileID req.fileID with k | fid
  · exact hinv
  rcases htot : getChunkTotal req.chunkTotal with k | total
  · exact hinv
  rcases hseq : getChunkSequence req.chunkSeq with k | s
  · exact hinv
  dsimp only
  by_cases hge : s ≥ total
  · rw [if_pos hge]
    exact hinv
  rw [if_neg hge]
  by_cases hemp : req.body = []
  · rw [if_pos hemp]
    exact hinv
  rw [if_neg hemp]
  have hst1 : RegistryInv (getFileOrAdd st fid s total).1 :=
    getFileOrAdd_inv hinv (getChunkTotal_ok htot).2
  by_cases hmm : (getFileOrAdd st fid s total).2.expectedTotal ≠ total
  · rw [if_pos hmm]
    exact hst1
  rw [if_neg hmm]
  push_neg at hmm
  have hbnd : ∀ f, mapGet (getFileOrAdd st fid s total).1.data fid = some f →
      0 ≤ s ∧ s < f.expectedTotal := by
    intro f hf
    rw [getFileOrAdd_entry] at hf
    obtain rfl := (Option.some.inj hf).symm
    exact ⟨(getChunkSequence_ok hseq).2, by omega⟩
  have hst2 : RegistryInv (add (getFileOrAdd st fid s total).1 fid s req.body w).1 :=
    add_inv hst1 hbnd
  rcases herr : (add (getFileOrAdd st fid s total).1 fid s req.body w).2 with _ | e
  · dsimp only
    by_cases hcomp :
        isComplete (add (getFileOrAdd st fid s total).1 fid s req.body w).1 fid
    · rw [if_pos hcomp]
      rcases hcerr :
          (combineChunks (add (getFileOrAdd st fid s total).1 fid s req.body w).1 fid).2.2
          with _ | e2
      · rcases hart :
            mapGet (combineChunks
              (add (getFileOrAdd st fid s total).1 fid s req.body w).1 fid).1.completedDir fid
            with _ | artifact
        · intro p hp
          rw [combineChunks_data] at hp
          exact hst2 p hp
        · intro p hp
          rw [combineChunks_data] at hp
          exact hst2 p hp
      · intro p hp
        rw [combineChunks_data] at hp
        exact hst2 p hp
    · rw [if_neg hcomp]
      exact hst2
  · exact hst2

theorem mem_seqList {n j : Int} : j ∈ seqList n ↔ 0 ≤ j ∧ j < n := by
  unfold seqList
  rw [List.mem_map]
  constructor
  · rintro ⟨k, hk, rfl⟩
    rw [List.mem_range] at hk
    simp only [Int.ofNat_eq_natCast]
    omega
  · rintro ⟨h0, hn⟩
    refine ⟨j.toNat, ?_, ?_⟩
    · rw [List.mem_range]
      omega
    · simp only [Int.ofNat_eq_natCast]
      omega

theorem combineFrom_spec (chunks : List ((String × Int) × Bytes)) (fid : String)
    (q : Int → Bytes) (ids : List Int)
    (h : ∀ i ∈ ids, mapGet chunks (chunkFilePath fid i) = some (q i)) :
    ∀ acc, combineFrom chunks fid ids acc = (acc ++ (ids.map q).flatten, true) := by
  induction ids with
  | nil =>
    intro acc
    simp [combineFrom]
  | cons i rest ih =>
    intro acc
    have hi := h i (List.mem_cons_self _ _)
    rw [combineFrom, hi]
    dsimp only
    rw [ih (fun j hj => h j (List.mem_cons_of_mem _ hj)) (acc ++ q i)]
    simp [List.append_assoc]

/-- The registry entry and post-write state after one valid submission,
for an identity either unregistered (first chunk) or registered with the
same declared total. -/
theorem add_after_getFileOrAdd {st : AssemblerState} {fid : String} {i N : Int} {d : Bytes}
    {S : Finset Int}
    (hview : (mapGet st.data fid = none ∧ S = ∅) ∨
      mapGet st.data fid = some ⟨S, N⟩) :
    (getFileOrAdd st fid i N).2 = ⟨S, N⟩ ∧
    add (getFileOrAdd st fid i N).1 fid i d true =
      ({ st with data := mapSet st.data fid ⟨insert i S, N⟩,
                 chunksDir := mapSet st.chunksDir (chunkFilePath fid i) d }, none) := by
  rcases hview with ⟨hnone, rfl⟩ | hsome
  · have hga : getFileOrAdd st fid i N =
        ({ st with data := mapSet st.data fid ⟨∅, N⟩ }, ⟨∅, N⟩) := by
      unfold getFileOrAdd getFile
      rw [hnone]
    rw [hga]
    refine ⟨rfl, ?_⟩
    unfold add
    rw [if_pos rfl]
    dsimp only
    rw [mapGet_set_self]
    dsimp only
    rw [mapSet_mapSet]
  · have hga : getFileOrAdd st fid i N = (st, ⟨S, N⟩) := by
      unfold getFileOrAdd getFile
      rw [hsome]
    rw [hga]
    refine ⟨rfl, ?_⟩
    unfold add
    rw [if_pos rfl]
    dsimp only
    rw [hsome]

/-- One valid submission that does not complete the upload: the chunk is
staged, the sequence number recorded, and a progress response returned. -/
theorem step_in_progress (st : AssemblerState) (fid : String) (N i : Int) (d : Bytes)
    (S : Finset Int)
    (hfid : getFileID fid = .ok fid) (hN : 0 < N) (hi0 : 0 ≤ i) (hiN : i < N)
    (hd : ¬d = [])
    (hview : (mapGet st.data fid = none ∧ S = ∅) ∨
      mapGet st.data fid = some ⟨S, N⟩)
    (hconorm : ((insert i S).card : Int) ≠ N) :
    middlewareStep st (mkReq fid N i d) true =
      ({ st with data := mapSet st.data fid ⟨insert i S, N⟩,
                 chunksDir := mapSet st.chunksDir (chunkFilePath fid i) d },
        .progress ((insert i S).card : Int) N) := by
  obtain ⟨hfr2, hadd⟩ := add_after_getFileOrAdd (i := i) (d := d) hview
  have htot' : getChunkTotal (some N) = .ok N := by
    simp only [getChunkTotal]
    rw [if_neg (by omega : ¬N ≤ 0)]
  have hseq' : getChunkSequence (some i) = .ok i := by
    simp only [getChunkSequence]
    rw [if_neg (by omega : ¬i < 0)]
  unfold middlewareStep mkReq
  dsimp only
  rw [hfid, htot', hseq']
  dsimp only
  rw [if_neg (by omega : ¬i ≥ N), if_neg hd]
  rw [hfr2]
  dsimp only
  rw [if_neg (by simp : ¬N ≠ N)]
  rw [hadd]
  dsimp only
  have hcount : countChunks
      ({ st with data := mapSet st.data fid ⟨insert i S, N⟩,
                 chunksDir := mapSet st.chunksDir (chunkFilePath fid i) d }) fid
      = ((insert i S).card : Int) := by
    unfold countChunks getFile
    dsimp only
    rw [mapGet_set_self]
  have htotal : totalChunks
      ({ st with data := mapSet st.data fid ⟨insert i S, N⟩,
                 chunksDir := mapSet st.chunksDir (chunkFilePath fid i) d }) fid = N := by
    unfold totalChunks getFile
    dsimp only
    rw [mapGet_set_self]
  have hic : ¬(isComplete
      ({ st with data := mapSet st.data fid ⟨insert i S, N⟩,
                 chunksDir := mapSet st.chunksDir (chunkFilePath fid i) d }) fid = true) := by
    unfold isComplete
    rw [hcount, htotal]
    simpa using hconorm
  rw [if_neg hic, hcount, htotal]

/-- One valid submission that completes the upload: the chunk is staged,
the entry becomes complete, the artifact is assembled as the ascending
concatenation of the staged payloads, and the handler is handed the
artifact with the identity in context. -/
theorem step_completes (st : AssemblerState) (fid : String) (N i : Int) (d : Bytes)
    (S : Finset Int) (p : Int → Bytes)
    (hfid : getFileID fid = .ok fid) (hN : 0 < N) (hi0 : 0 ≤ i) (hiN : i < N)
    (hd : ¬d = [])
    (hview : (mapGet st.data fid = none ∧ S = ∅) ∨
      mapGet st.data fid = some ⟨S, N⟩)
    (hcard : ((insert i S).card : Int) = N)
    (hp : ∀ j ∈ S, mapGet st.chunksDir (chunkFilePath fid j) = some (p j))
    (hSrange : ∀ j ∈ S, 0 ≤ j ∧ j < N)
    (hdi : d = p i) :
    middlewareStep st (mkReq fid N i d) true =
      ({ st with data := mapSet st.data fid ⟨insert i S, N⟩,
                 chunksDir := mapSet st.chunksDir (chunkFilePath fid i) d,
                 completedDir := mapSet st.completedDir fid (((seqList N).map p).flatten) },
        .handoff N N
          { fileID := fid, body := ((seqList N).map p).flatten,
            contentType := "application/octet-stream", ctx := [("id", fid)] }) := by
  obtain ⟨hfr2, hadd⟩ := add_after_getFileOrAdd (i := i) (d := d) hview
  have htot' : getChunkTotal (some N) = .ok N := by
    simp only [getChunkTotal]
    rw [if_neg (by omega : ¬N ≤ 0)]
  have hseq' : getChunkSequence (some i) = .ok i := by
    simp only [getChunkSequence]
    rw [if_neg (by omega : ¬i < 0)]
  have hfull : insert i S = Finset.Ico (0 : Int) N := by
    have hsub : insert i S ⊆ Finset.Ico (0 : Int) N := by
      intro j hj
      rcases Finset.mem_insert.mp hj with rfl | hj
      · exact Finset.mem_Ico.mpr ⟨hi0, hiN⟩
      · exact Finset.mem_Ico.mpr (hSrange j hj)
    have hle : (Finset.Ico (0 : Int) N).card ≤ (insert i S).card := by
      rw [Int.card_Ico]
      omega
    exact Finset.eq_of_subset_of_card_le hsub hle
  set st2 : AssemblerState :=
    { st with data := mapSet st.data fid ⟨insert i S, N⟩,
              chunksDir := mapSet st.chunksDir (chunkFilePath fid i) d } with hst2
  have hchunks2 : ∀ j ∈ seqList N, mapGet st2.chunksDir (chunkFilePath fid j) = some (p j) := by
    intro j hj
    obtain ⟨hj0, hjN⟩ := mem_seqList.mp hj
    by_cases hji : j = i
    · subst hji
      rw [hst2]
      dsimp only
      rw [mapGet_set_self, hdi]
    · have hmemS : j ∈ S := by
        have : j ∈ insert i S := by
          rw [hfull]
          exact Finset.mem_Ico.mpr ⟨hj0, hjN⟩
        rcases Finset.mem_insert.mp this with h | h
        · exact absurd h hji
        · exact h
      rw [hst2]
      dsimp only
      rw [mapGet_set_ne _ _ _ _ (by simp [chunkFilePath, hji])]
      exact hp j hmemS
  have hcount : countChunks st2 fid = ((insert i S).card : Int) := by
    unfold countChunks getFile
    rw [hst2]
    dsimp only
    rw [mapGet_set_self]
  have htotal : totalChunks st2 fid = N := by
    unfold totalChunks getFile
    rw [hst2]
    dsimp only
    rw [mapGet_set_self]
  have hic : isComplete st2 fid = true := by
    unfold isComplete
    rw [hcount, htotal]
    simpa using hcard
  have hcomb : combineChunks st2 fid =
      ({ st2 with completedDir := mapSet st2.completedDir fid (((seqList N).map p).flatten) },
        fid, none) := by
    unfold combineChunks
    rw [if_pos hic]
    dsimp only
    rw [htotal]
    rw [combineFrom_spec st2.chunksDir fid p (seqList N) hchunks2 []]
    dsimp only
    rw [if_pos rfl]
    simp
  unfold middlewareStep mkReq
  dsimp only
  rw [hfid, htot', hseq']
  dsimp only
  rw [if_neg (by omega : ¬i ≥ N), if_neg hd]
  rw [hfr2]
  dsimp only
  rw [if_neg (by simp : ¬N ≠ N)]
  rw [hadd]
  dsimp only
  rw [if_pos hic, hcomb]
  dsimp only
  rw [mapGet_set_self]
  dsimp only
  rw [hcount, htotal, hcard, if_pos rfl]

/-- Inversion for a handoff outcome: it can only arise from the complete
branch, so its reported counts agree, its identity is the request's
(validated) identity, and its context is the request context extended
with the `"id"` value. -/
theorem middlewareStep_handoff_inv {st : AssemblerState} {req : Request} {w : Bool}
    {h t : Int} {c : DownstreamCtx}
    (hstep : (middlewareStep st req w).2 = .handoff h t c) :
    h = t ∧ c.fileID = req.fileID ∧ c.ctx = ("id", req.fileID) :: req.ctx := by
  unfold middlewareStep at hstep
  rcases hfid : getFileID req.fileID with k | fid
  · rw [hfid] at hstep
    simp at hstep
  rw [hfid] at hstep
  rcases htot : getChunkTotal req.chunkTotal with k | total
  · rw [htot] at hstep
    simp at hstep
  rw [htot] at hstep
  rcases hseq : getChunkSequence req.chunkSeq with k | s
  · rw [hseq] at hstep
    simp at hstep
  rw [hseq] at hstep
  by_cases hge : s ≥ total
  · simp [hge] at hstep
  simp only [if_neg hge] at hstep
  by_cases hemp : req.body = []
  · simp [hemp] at hstep
  simp only [if_neg hemp] at hstep
  by_cases hmm : (getFileOrAdd st fid s total).2.expectedTotal ≠ total
  · simp [hmm] at hstep
  simp only [if_neg hmm] at hstep
  rcases herr : (add (getFileOrAdd st fid s total).1 fid s req.body w).2 with _ | e
  · rw [herr] at hstep
    by_cases hcomp : isComplete (add (getFileOrAdd st fid s total).1 fid s req.body w).1 fid
    · simp only [if_pos hcomp] at hstep
      rcases hcerr :
          (combineChunks (add (getFileOrAdd st fid s total).1 fid s req.body w).1 fid).2.2
          with _ | e2
      · rw [hcerr] at hstep
        rcases hart :
            mapGet (combineChunks
              (add (getFileOrAdd st fid s total).1 fid s req.body w).1 fid).1.completedDir fid
            with _ | artifact
        · rw [hart] at hstep
          simp at hstep
        · rw [hart] at hstep
          simp only [MWOutcome.handoff.injEq] at hstep
          obtain ⟨hh, ht, hc⟩ := hstep
          have hfid' : fid = req.fileID := getFileID_ok hfid
          have hcount :
              countChunks (add (getFileOrAdd st fid s total).1 fid s req.body w).1 fid
                = totalChunks (add (getFileOrAdd st fid s total).1 fid s req.body w).1 fid := by
            have hb := hcomp
            unfold isComplete at hb
            exact beq_iff_eq.mp hb
          refine ⟨?_, ?_, ?_⟩
          · rw [← hh, ← ht, hcount]
          · rw [← hc]
            simp [hfid']
          · rw [← hc]
            simp [hfid']
      · rw [hcerr] at hstep
        simp at hstep
    · simp [hcomp] at hstep
  · rw [herr] at hstep
    simp at hstep

/-- Inversion for a progress outcome: it can only arise from the
not-yet-complete branch, so its reported counts differ. -/
theorem middlewareStep_progress_inv {st : AssemblerState} {req : Request} {w : Bool}
    {h t : Int} (hstep : (middlewareStep st req w).2 = .progress h t) : h ≠ t := by
  unfold middlewareStep at hstep
  rcases hfid : getFileID req.fileID with k | fid
  · rw [hfid] at hstep
    simp at hstep
  rw [hfid] at hstep
  rcases htot : getChunkTotal req.chunkTotal with k | total
  · rw [htot] at hstep
    simp at hstep
  rw [htot] at hstep
  rcases hseq : getChunkSequence req.chunkSeq with k | s
  · rw [hseq] at hstep
    simp at hstep
  rw [hseq] at hstep
  by_cases hge : s ≥ total
  · simp [hge] at hstep
  simp only [if_neg hge] at hstep
  by_cases hemp : req.body = []
  · simp [hemp] at hstep
  simp only [if_neg hemp] at hstep
  by_cases hmm : (getFileOrAdd st fid s total).2.expectedTotal ≠ total
  · simp [hmm] at hstep
  simp only [if_neg hmm] at hstep
  rcases herr : (add (getFileOrAdd st fid s total).1 fid s req.body w).2 with _ | e
  · rw [herr] at hstep
    by_cases hcomp : isComplete (add (getFileOrAdd st fid s total).1 fid s req.body w).1 fid
    · simp only [if_pos hcomp] at hstep
      rcases hcerr :
          (combineChunks (add (getFileOrAdd st fid s total).1 fid s req.body w).1 fid).2.2
          with _ | e2
      · rw [hcerr] at hstep
        rcases hart :
            mapGet (combineChunks
              (add (getFileOrAdd st fid s total).1 fid s req.body w).1 fid).1.completedDir fid
            with _ | artifact
        · rw [hart] at hstep
          simp at hstep
        · rw [hart] at hstep
          simp at hstep
      · rw [hcerr] at hstep
        simp at hstep
    · simp only [if_neg hcomp] at hstep
      simp only [MWOutcome.progress.injEq] at hstep
      obtain ⟨hh, ht⟩ := hstep
      have hb : ¬(countChunks (add (getFileOrAdd st fid s total).1 fid s req.body w).1 fid
          = totalChunks (add (getFileOrAdd st fid s total).1 fid s req.body w).1 fid) := by
        intro he
        exact hcomp (by unfold isComplete; exact beq_iff_eq.mpr he)
      rw [← hh, ← ht]
      exact hb
  · rw [herr] at hstep
    simp at hstep

/-- **C2** (counterexample).  The claim says the downstream handler is
invoked only on the one submission whose write brings the received count
to `expectedChunkCount`, never again for a duplicate arriving after
completion.  With `KeepCompletedChunks` set (and likewise before the
asynchronous cleanup has removed the entry), resubmitting chunk 0 of a
one-chunk upload finds the entry still complete and performs a second
combine and a second handoff: two handoffs for the identity `"f"`. -/
theorem duplicate_after_completion_reinvokes :
    ((middlewareStep (initialState true) (mkReq "f" 1 0 [9]) true).2.isHandoff = true) ∧
    ((middlewareStep (middlewareStep (initialState true) (mkReq "f" 1 0 [9]) true).1
        (mkReq "f" 1 0 [9]) true).2.isHandoff = true) := by decide

/-- **C2** (amended): the downstream handler is invoked exactly on the
submissions whose successful chunk write leaves the received count equal
to `expectedChunkCount` — the completing submission, but also any
duplicate chunk arriving while the completed upload is still registered.
Formally: a handoff outcome always reports received = expected, and a
progress (no-handoff) outcome always reports received ≠ expected. -/
theorem handoff_exactly_on_complete_counts (st : AssemblerState) (req : Request) (w : Bool) :
    (∀ h t c, (middlewareStep st req w).2 = .handoff h t c → h = t) ∧
    (∀ h t, (middlewareStep st req w).2 = .progress h t → h ≠ t) :=
  ⟨fun _ _ _ hstep => (middlewareStep_handoff_inv hstep).1,
   fun _ _ hstep => middlewareStep_progress_inv hstep⟩

theorem handoff_exactly_on_complete_counts_witness :
    (middlewareStep (initialState true) (mkReq "f" 1 0 [9]) true).2 =
      MWOutcome.handoff 1 1
        { fileID := "f", body := [9], contentType := "application/octet-stream",
          ctx := [("id", "f")] } ∧ (1 : Int) = 1 :=
  ⟨by decide,
   (handoff_exactly_on_complete_counts (initialState true) (mkReq "f" 1 0 [9]) true).1 1 1
     { fileID := "f", body := [9], contentType := "application/octet-stream",
       ctx := [("id", "f")] } (by decide)⟩

/-- **C3**: a submission that declares an expected total `M` different
from the registered entry's `expectedTotal` (and is otherwise
well-formed, so that it reaches the consistency check) is rejected with
`ErrChunkQuantityChange` (HTTP 400) and the whole state — registry entry,
received set, staged chunks — is exactly the pre-submission state; the
older `addFileIfNotExists` enforces the same rule. -/
theorem declared_total_change_rejected (st : AssemblerState) (fid : String) (M s : Int)
    (d : Bytes) (w : Bool) (f : File)
    (hf : mapGet st.data fid = some f)
    (hfid : getFileID fid = .ok fid)
    (hM : 0 < M) (hs0 : 0 ≤ s) (hsM : s < M)
    (hd : d ≠ [])
    (hne : f.expectedTotal ≠ M) :
    middlewareStep st (mkReq fid M s d) w = (st, .reject .quantityChange) ∧
    addFileIfNotExists st fid s M = (st, some GoError.quantityChange) := by
  have hM' : ¬(M ≤ 0) := by omega
  have hs' : ¬(s < 0) := by omega
  have hge : ¬(s ≥ M) := by omega
  constructor
  · unfold middlewareStep
    simp [mkReq, hfid, getChunkTotal, getChunkSequence, hM', hs', hge, hd,
      getFileOrAdd, getFile, hf, hne]
  · unfold addFileIfNotExists
    simp [hf, hne]

theorem declared_total_change_rejected_witness :
    middlewareStep sampleState (mkReq "f" 3 0 [1]) true =
      (sampleState, .reject .quantityChange) ∧
    addFileIfNotExists sampleState "f" 0 3 = (sampleState, some GoError.quantityChange) :=
  declared_total_change_rejected sampleState "f" 3 0 [1] true
    { chunkSet := ∅, expectedTotal := 2 }
    (by decide) (by decide) (by decide) (by decide) (by decide) (by decide) (by decide)

/-- **C4**: submitting the same (identity, sequence number) twice for a
registered upload succeeds both times, the second write overwrites the
staged payload (last write wins), and the received-chunk count after the
second add equals the count after the first. -/
theorem resubmit_same_sequence_idempotent (st : AssemblerState) (fid : String) (i : Int)
    (d d' : Bytes) (f : File) (hf : mapGet st.data fid = some f) :
    (add st fid i d true).2 = none ∧
    (add (add st fid i d true).1 fid i d' true).2 = none ∧
    countChunks (add (add st fid i d true).1 fid i d' true).1 fid =
      countChunks (add st fid i d true).1 fid ∧
    mapGet (add (add st fid i d true).1 fid i d' true).1.chunksDir (chunkFilePath fid i) =
      some d' := by
  have h1 : add st fid i d true =
      ({ st with chunksDir := mapSet st.chunksDir (chunkFilePath fid i) d,
                 data := mapSet st.data fid { f with chunkSet := insert i f.chunkSet } },
        none) := by
    simp [add, hf]
  have h2 : add (add st fid i d true).1 fid i d' true =
      ({ st with chunksDir := mapSet st.chunksDir (chunkFilePath fid i) d',
                 data := mapSet st.data fid { f with chunkSet := insert i f.chunkSet } },
        none) := by
    rw [h1]
    simp [add, mapGet_set_self, mapSet_mapSet, Finset.insert_idem]
  refine ⟨by rw [h1], by rw [h2], ?_, ?_⟩
  · rw [h2, h1]
    simp [countChunks, getFile]
  · rw [h2]
    exact mapGet_set_self _ _ _

theorem resubmit_same_sequence_idempotent_witness :
    (add sampleState "f" 0 [1] true).2 = none ∧
    (add (add sampleState "f" 0 [1] true).1 "f" 0 [2] true).2 = none ∧
    countChunks (add (add sampleState "f" 0 [1] true).1 "f" 0 [2] true).1 "f" =
      countChunks (add sampleState "f" 0 [1] true).1 "f" ∧
    mapGet (add (add sampleState "f" 0 [1] true).1 "f" 0 [2] true).1.chunksDir
      (chunkFilePath "f" 0) = some [2] :=
  resubmit_same_sequence_idempotent sampleState "f" 0 [1] [2]
    { chunkSet := ∅, expectedTotal := 2 } (by decide)

/-- **C6**: a submission whose sequence number is negative or at least
the declared total, or whose payload is empty, is answered with an
`InvalidRequest`-class 400 rejection and the state is exactly the
pre-submission state (the rejection happens before the registry or the
chunk store is touched). -/
theorem out_of_range_or_empty_rejected (st : AssemblerState) (req : Request) (w : Bool)
    (M s : Int) (hM : req.chunkTotal = some M) (hs : req.chunkSeq = some s)
    (hbad : s < 0 ∨ M ≤ s ∨ req.body = []) :
    ∃ k, middlewareStep st req w = (st, .reject k) ∧ k.isInvalidRequest = true := by
  unfold middlewareStep
  rcases hfid : getFileID req.fileID with k | fid
  · refine ⟨k, by simp, ?_⟩
    unfold getFileID at hfid
    by_cases h1 : req.fileID = "" <;> simp [h1] at hfid
    · rw [← hfid]; rfl
    · by_cases h2 : containsInvalidCharacters req.fileID <;> simp [h2] at hfid
      rw [← hfid]; rfl
  rw [hM]
  by_cases hMp : M ≤ 0
  · exact ⟨.nonPositiveTotal, by simp [getChunkTotal, hMp], rfl⟩
  simp only [getChunkTotal, if_neg hMp]
  rw [hs]
  by_cases hsn : s < 0
  · exact ⟨.negativeSeq, by simp [getChunkSequence, hsn], rfl⟩
  simp only [getChunkSequence, if_neg hsn]
  by_cases hge : s ≥ M
  · exact ⟨.seqOutOfRange, by simp [hge], rfl⟩
  have hemp : req.body = [] := by
    rcases hbad with h | h | h
    · omega
    · omega
    · exact h
  exact ⟨.emptyChunk, by simp [hge, hemp], rfl⟩

theorem out_of_range_or_empty_rejected_witness :
    ∃ k, middlewareStep sampleState (mkReq "f" 2 2 [1]) true =
      (sampleState, .reject k) ∧ k.isInvalidRequest = true :=
  out_of_range_or_empty_rejected sampleState (mkReq "f" 2 2 [1]) true 2 2
    rfl rfl (by decide)

/-- **C7** (counterexample).  The claim says `delete` succeeds when the
staged chunk file is already missing.  On a fresh assembler no chunk file
exists, and `delete` returns a storage error (`os.Remove` fails on a
missing path). -/
theorem delete_missing_cx :
    delete (initialState false) "f" 0 = (initialState false, some GoError.storage) := by
  decide

/-- **C7** (amended): `delete` fails with a `StorageError` whenever the
underlying `os.Remove` fails — including when the staged chunk file is
already missing, which is therefore an error, not a tolerated success
(repeated cleanup of the same chunk fails on the second attempt); only
when the file exists (and the upload is registered) does `delete`
succeed. -/
theorem delete_missing_is_error (st : AssemblerState) (fid : String) (i : Int) :
    (mapGet st.chunksDir (chunkFilePath fid i) = none →
      delete st fid i = (st, some GoError.storage)) ∧
    (∀ b f, mapGet st.chunksDir (chunkFilePath fid i) = some b →
      mapGet st.data fid = some f → (delete st fid i).2 = none) := by
  constructor
  · intro h
    simp [delete, h]
  · intro b f hb hf
    simp only [delete, hb, hf]
    split <;> rfl

theorem delete_missing_is_error_witness :
    delete (initialState false) "g" 1 = (initialState false, some GoError.storage) :=
  (delete_missing_is_error (initialState false) "g" 1).1 (by decide)

/-- **C8**: a chunk submission whose storage write fails returns the
error with the state exactly unchanged — the sequence number is not
recorded as received — and a later successful write of the same sequence
number records it exactly once (count goes up by exactly one). -/
theorem failed_write_not_counted (st : AssemblerState) (fid : String) (i : Int) (d : Bytes) :
    add st fid i d false = (st, some GoError.storage) ∧
    (∀ f, mapGet st.data fid = some f → i ∉ f.chunkSet →
      (add st fid i d true).2 = none ∧
      countChunks (add st fid i d true).1 fid = countChunks st fid + 1) := by
  constructor
  · rfl
  · intro f hf hi
    constructor
    · simp [add, hf]
    · simp [add, hf, countChunks, getFile, mapGet_set_self, Finset.card_insert_of_not_mem hi]

theorem failed_write_not_counted_witness :
    add sampleState "f" 0 [1] false = (sampleState, some GoError.storage) ∧
    (add sampleState "f" 0 [1] true).2 = none ∧
    countChunks (add sampleState "f" 0 [1] true).1 "f" = countChunks sampleState "f" + 1 :=
  ⟨(failed_write_not_counted sampleState "f" 0 [1]).1,
   (failed_write_not_counted sampleState "f" 0 [1]).2
     { chunkSet := ∅, expectedTotal := 2 } (by decide) (by decide)⟩

/-- **C9**: an identity that is empty or contains a character outside
`A-Z a-z 0-9 _ -` is rejected with an `InvalidRequest`-class 400 before
any state change (so before any storage path is derived from it), and a
non-empty identity made only of those characters passes `getFileID`
unchanged. -/
theorem identity_charset_enforced (st : AssemblerState) (req : Request) (w : Bool)
    (s : String) :
    ((req.fileID = "" ∨ containsInvalidCharacters req.fileID = true) →
      ∃ k, middlewareStep st req w = (st, .reject k) ∧
        (k = RejectKind.missingFileID ∨ k = RejectKind.badFileIDChars)) ∧
    (s ≠ "" → containsInvalidCharacters s = false → getFileID s = .ok s) := by
  constructor
  · intro hbad
    by_cases h1 : req.fileID = ""
    · exact ⟨.missingFileID, by simp [middlewareStep, getFileID, h1], Or.inl rfl⟩
    · have h2 : containsInvalidCharacters req.fileID = true := by
        rcases hbad with h | h
        · exact absurd h h1
        · exact h
      exact ⟨.badFileIDChars, by simp [middlewareStep, getFileID, h1, h2], Or.inr rfl⟩
  · intro h1 h2
    simp [getFileID, h1, h2]

theorem identity_charset_enforced_witness :
    (∃ k, middlewareStep sampleState
        { fileID := "a/b", chunkTotal := some 1, chunkSeq := some 0, body := [1],
          contentType := "", ctx := [] } true =
      (sampleState, .reject k) ∧
      (k = RejectKind.missingFileID ∨ k = RejectKind.badFileIDChars)) ∧
    getFileID "ab_-9Z" = .ok "ab_-9Z" :=
  ⟨(identity_charset_enforced sampleState
      { fileID := "a/b", chunkTotal := some 1, chunkSeq := some 0, body := [1],
        contentType := "", ctx := [] } true "x").1 (by decide),
   (identity_charset_enforced sampleState
      { fileID := "a/b", chunkTotal := some 1, chunkSeq := some 0, body := [1],
        contentType := "", ctx := [] } true "ab_-9Z").2 (by decide) (by decide)⟩

/-- **C10**: `GetFileID` panics (the `.error` branch carrying the panic
message) on any request context that does not hold the engine-set `"id"`
value; on every request the middleware hands downstream at completion,
`GetFileID` returns the upload's identity without panicking. -/
theorem getfileid_panic_discipline :
    (∀ ctx : Ctx, mapGet ctx "id" = none →
      GetFileID ctx =
        .error "GetFileID can only be used inside handlers wrapped by go-assemble") ∧
    (∀ (st : AssemblerState) (req : Request) (w : Bool) (h t : Int) (c : DownstreamCtx),
      (middlewareStep st req w).2 = .handoff h t c →
      GetFileID c.ctx = .ok c.fileID ∧ c.fileID = req.fileID) := by
  constructor
  · intro ctx h
    simp [GetFileID, h]
  · intro st req w h t c hstep
    obtain ⟨-, hcf, hcc⟩ := middlewareStep_handoff_inv hstep
    constructor
    · rw [hcc, hcf]
      simp [GetFileID, mapGet]
    · exact hcf

theorem getfileid_panic_discipline_witness :
    GetFileID [] =
      .error "GetFileID can only be used inside handlers wrapped by go-assemble" ∧
    GetFileID [("id", "f")] = .ok "f" ∧ ("f" : String) = "f" := by
  refine ⟨getfileid_panic_discipline.1 [] rfl, ?_⟩
  have hh := getfileid_panic_discipline.2 (initialState true) (mkReq "f" 1 0 [9]) true 1 1
    { fileID := "f", body := [9], contentType := "application/octet-stream",
      ctx := [("id", "f")] } (by decide)
  exact hh

theorem seqList_nodup (n : Int) : (seqList n).Nodup := by
  unfold seqList
  refine (List.nodup_range _).map ?_
  intro a b h
  simpa using h

theorem seqList_length (n : Int) : (seqList n).length = n.toNat := by
  unfold seqList
  simp

theorem mem_toFinset_seqList {n j : Int} : j ∈ (seqList n).toFinset ↔ 0 ≤ j ∧ j < n := by
  rw [List.mem_toFinset]
  exact mem_seqList

/-- While an upload stays strictly short of its expected total, processing
any list of in-range submissions preserves the partial-upload picture and
accumulates exactly the submitted sequence numbers. -/
theorem processAll_partial (fid : String) (N : Int) (p : Int → Bytes)
    (hfid : getFileID fid = .ok fid) (hN : 0 < N)
    (hp : ∀ j, 0 ≤ j → j < N → p j ≠ []) :
    ∀ (L : List Int) (st : AssemblerState) (S : Finset Int),
      partialView st fid N p S →
      (∀ j ∈ L, 0 ≤ j ∧ j < N) →
      ((S ∪ L.toFinset).card : Int) < N →
      partialView (processAll fid N p st L) fid N p (S ∪ L.toFinset) := by
  intro L
  induction L with
  | nil =>
    intro st S hv hL hcard
    simpa using hv
  | cons i rest ih =>
    intro st S hv hL hcard
    obtain ⟨hview, hchunks, hrange⟩ := hv
    have hi := hL i (List.mem_cons_self _ _)
    have hU : S ∪ (i :: rest).toFinset = insert i S ∪ rest.toFinset := by
      rw [List.toFinset_cons, Finset.union_comm S (insert i rest.toFinset),
        Finset.insert_union, Finset.insert_union, Finset.union_comm rest.toFinset S]
    have hins_lt : ((insert i S).card : Int) < N := by
      have hsub : insert i S ⊆ insert i S ∪ rest.toFinset :=
        Finset.subset_union_left
      have hc := Finset.card_le_card hsub
      rw [hU] at hcard
      omega
    have hstep := step_in_progress st fid N i (p i) S hfid hN hi.1 hi.2
      (by simpa using hp i hi.1 hi.2) hview (by omega)
    show partialView
      (processAll fid N p (middlewareStep st (mkReq fid N i (p i)) true).1 rest) fid N p _
    rw [hstep]
    dsimp only
    have hv' : partialView
        ({ st with data := mapSet st.data fid ⟨insert i S, N⟩,
                   chunksDir := mapSet st.chunksDir (chunkFilePath fid i) (p i) })
        fid N p (insert i S) := by
      refine ⟨Or.inr ?_, ?_, ?_⟩
      · exact mapGet_set_self _ _ _
      · intro j hj
        by_cases hji : j = i
        · subst hji
          exact (mapGet_set_self _ _ _).trans rfl
        · show mapGet (mapSet st.chunksDir (chunkFilePath fid i) (p i))
            (chunkFilePath fid j) = some (p j)
          rw [mapGet_set_ne _ _ _ _ (by simp [chunkFilePath, hji])]
          rcases Finset.mem_insert.mp hj with h | h
          · exact absurd h hji
          · exact hchunks j h
      · intro j hj
        rcases Finset.mem_insert.mp hj with rfl | hj
        · exact hi
        · exact hrange j hj
    have hrest := ih _ (insert i S) hv'
      (fun j hj => hL j (List.mem_cons_of_mem _ hj)) (by rw [← hU]; exact hcard)
    rw [hU]
    exact hrest

/-- **C1**: for every upload (valid identity, expected total `N > 0`,
non-empty chunk payloads) and every arrival order — any permutation of
`0..N-1`, the last arrival being chunk `k` — the completing submission
hands the downstream handler an artifact equal to the concatenation of
the `N` staged chunk payloads in strictly ascending sequence order. -/
theorem artifact_is_ordered_concatenation (fid : String) (N : Int) (p : Int → Bytes)
    (keep : Bool) (order : List Int) (k : Int)
    (hfid : getFileID fid = .ok fid) (hN : 0 < N)
    (hp : ∀ j, 0 ≤ j → j < N → p j ≠ [])
    (hperm : (order ++ [k]).Perm (seqList N)) :
    (middlewareStep (processAll fid N p (initialState keep) order)
        (mkReq fid N k (p k)) true).2 =
      .handoff N N
        { fileID := fid, body := ((seqList N).map p).flatten,
          contentType := "application/octet-stream", ctx := [("id", fid)] } := by
  have hTfin : (order ++ [k]).toFinset = (seqList N).toFinset :=
    List.toFinset_eq_of_perm _ _ hperm
  have hnodup : (order ++ [k]).Nodup := hperm.nodup_iff.mpr (seqList_nodup N)
  have hlen : order.length + 1 = N.toNat := by
    have := hperm.length_eq
    rw [seqList_length] at this
    simpa using this
  have hmemT : ∀ j ∈ order ++ [k], 0 ≤ j ∧ j < N := by
    intro j hj
    have : j ∈ (seqList N).toFinset := by
      rw [← hTfin]
      exact List.mem_toFinset.mpr hj
    exact mem_toFinset_seqList.mp this
  have hk : 0 ≤ k ∧ k < N := hmemT k (by simp)
  have hordmem : ∀ j ∈ order, 0 ≤ j ∧ j < N := fun j hj =>
    hmemT j (List.mem_append_left _ hj)
  have hordnodup : order.Nodup := (List.nodup_append.mp hnodup).1
  have hordcard : (order.toFinset.card : Int) < N := by
    rw [List.toFinset_card_of_nodup hordnodup]
    omega
  have hstart : partialView (initialState keep) fid N p ∅ :=
    ⟨Or.inl ⟨rfl, rfl⟩, by simp, by simp⟩
  have hpv := processAll_partial fid N p hfid hN hp order (initialState keep) ∅
    hstart hordmem (by simpa using hordcard)
  rw [Finset.empty_union] at hpv
  obtain ⟨hview, hchunks, hrange⟩ := hpv
  have hinsT : insert k order.toFinset = (seqList N).toFinset := by
    rw [← hTfin, List.toFinset_append, List.toFinset_cons, List.toFinset_nil]
    rw [Finset.union_comm, Finset.insert_union, Finset.empty_union]
  have hcard : ((insert k order.toFinset).card : Int) = N := by
    rw [hinsT, List.toFinset_card_of_nodup (seqList_nodup N), seqList_length]
    omega
  have hstep := step_completes (processAll fid N p (initialState keep) order)
    fid N k (p k) order.toFinset p hfid hN hk.1 hk.2
    (by simpa using hp k hk.1 hk.2) hview hcard hchunks hrange rfl
  rw [hstep]

/-- **C5**: in every reachable engine state — after any interleaving of
submissions (entry creation, chunk writes, combines) and cleanup
deletions — every registered upload's received-chunk set has size at most
its `expectedChunkCount`, every recorded sequence number lying in
`[0, expectedChunkCount)`. -/
theorem registry_invariant_holds (st : AssemblerState) (h : Reachable st) :
    RegistryInv st := by
  induction h with
  | init keep =>
    intro p hp
    simp [initialState] at hp
  | step st req w hst ih => exact registryInv_step st req w ih
  | cleanup st fid i hst ih => exact delete_inv ih

theorem registry_invariant_holds_witness :
    RegistryInv (middlewareStep (initialState false) (mkReq "f" 2 0 [1]) true).1 :=
  registry_invariant_holds _
    (Reachable.step (initialState false) (mkReq "f" 2 0 [1]) true (Reachable.init false))

theorem artifact_is_ordered_concatenation_witness :
    (middlewareStep (processAll "f" 2 (fun j => [j.toNat + 1]) (initialState false) [1])
        (mkReq "f" 2 0 [0 + 1]) true).2 =
      .handoff 2 2
        { fileID := "f", body := ((seqList 2).map (fun j => [j.toNat + 1])).flatten,
          contentType := "application/octet-stream", ctx := [("id", "f")] } :=
  artifact_is_ordered_concatenation "f" 2 (fun j => [j.toNat + 1]) false [1] 0
    (by decide) (by decide) (fun j h1 h2 => by simp) (by decide)

end Assemble
